import Mathlib

/-!
Verification of the magnet-URI parsing library (`src/lib.rs`).

Strings are modelled as lists of characters (`Str`); the Rust standard
string operations used by the library (`starts_with`, `trim_start_matches`,
`split`, `u64::from_str`) are embedded as executable Lean functions on
`Str`.  The external url-encoded query decoder (`serde_urlencoded`) is kept
abstract: `MagnetUri.from_str` takes the decoder as a function parameter.
-/

namespace Magnet

/-- Strings, modelled as lists of characters. -/
abbrev Str := List Char

/-- Embeds Rust `s.starts_with(p)` for string patterns. -/
def strStartsWith : Str → Str → Bool
  | _, [] => true
  | [], _ :: _ => false
  | c :: cs, d :: ds => c == d && strStartsWith cs ds

/-- Embeds Rust `s.split(c)` for a character delimiter: splits `s` at every
occurrence of `c`, keeping empty segments, so the result always has one
more element than the number of occurrences of `c`. -/
def splitC (c : Char) : List Char → List (List Char)
  | [] => [[]]
  | a :: as =>
    match splitC c as with
    | [] => [[]]
    | h :: t => if a = c then [] :: h :: t else (a :: h) :: t

/-- The literal scheme string `magnet:?`. -/
def magnetScheme : Str := "magnet:?".data

/-- Fuel-indexed worker for `stripScheme`; the fuel only bounds the number
of removals and is irrelevant once it is at least `s.length`. -/
def stripAux : Nat → Str → Str
  | 0, s => s
  | n + 1, s =>
    if strStartsWith s magnetScheme then stripAux n (s.drop 8) else s

/-- Embeds Rust `s.trim_start_matches("magnet:?")`: repeatedly removes the
leading `magnet:?` prefix while it is present. -/
def stripScheme (s : Str) : Str :=
  stripAux s.length s

/-- Removes one optional leading `+` sign, as Rust's integer `from_str`
does before reading the digits. -/
def stripPlus : Str → Str
  | '+' :: rest => rest
  | s => s

/-- Embeds Rust `u64::from_str` (base 10): an optional leading `+`, then a
non-empty run of ASCII digits whose value fits in 64 bits. -/
def parseU64 (s : Str) : Option Nat :=
  let t := stripPlus s
  if t = [] then none
  else if t.all (fun c => c.isDigit) then
    let n := t.foldl (fun acc c => acc * 10 + (c.toNat - '0'.toNat)) 0
    if n < 2 ^ 64 then some n else none
  else none

/-- Embeds the library's `Error` enum.  The decoder's own error type is
opaque to the library, so `UrlEncode` carries an abstract diagnostic. -/
inductive Error where
  | InvalidScheme : Error
  | InvalidField : Str → Str → Error
  | InvalidTopic : Str → Error
  | UrlEncode : String → Error
deriving DecidableEq, Repr

/-- Embeds the `Topic` enum. -/
inductive Topic where
  | AICH : Str → Topic
  | BitPrint : Str → Topic
  | BitTorrent : Str → Topic
  | ED2K : Str → Topic
  | Kazaa : Str → Topic
  | MD5 : Str → Topic
  | SHA1 : Str → Topic
  | TTHash : Str → Topic
  | Unknown : Str → Topic
deriving DecidableEq, Repr

/-- `true` exactly on the `Topic.Unknown` variant. -/
def Topic.isUnknown : Topic → Bool
  | .Unknown _ => true
  | _ => false

/-- Embeds `Topic::from_str` (`impl FromStr for Topic`). -/
def Topic.from_str (s : Str) : Except Error Topic :=
  if strStartsWith s "urn:".data then
    let args := (splitC ':' s).drop 1
    if args.isEmpty then .error (.InvalidTopic s)
    else
      match args with
      | [key, value] =>
        if key = "aich".data then .ok (.AICH value)
        else if key = "bitprint".data then .ok (.BitPrint value)
        else if key = "btih".data then .ok (.BitTorrent value)
        else if key = "ed2k".data then .ok (.ED2K value)
        else if key = "kzhash".data then .ok (.Kazaa value)
        else if key = "md5".data then .ok (.MD5 value)
        else if key = "sha1".data then .ok (.SHA1 value)
        else .error (.InvalidTopic key)
      | [first, second, value] =>
        if first = "tree".data ∧ second = "tiger".data then .ok (.TTHash value)
        else .error (.InvalidTopic s)
      | _ => .error (.InvalidTopic s)
  else .error (.InvalidTopic s)

/-- Embeds the `Field` enum. -/
inductive Field where
  | AcceptableSource : Str → Field
  | DisplayName : Str → Field
  | Extension : Str → Str → Field
  | ExactTopic : Topic → Field
  | KeywordTopic : Str → Field
  | Length : Nat → Field
  | ManifestTopic : Str → Field
  | Source : Str → Field
  | Tracker : Str → Field
  | Unknown : Str → Str → Field
deriving DecidableEq, Repr

/-- Embeds `Field::new`. -/
def Field.new (key value : Str) : Except Error Field :=
  if key = "as".data then .ok (.AcceptableSource value)
  else if key = "dn".data then .ok (.DisplayName value)
  else if key = "kt".data then .ok (.KeywordTopic value)
  else if key = "mt".data then .ok (.ManifestTopic value)
  else if key = "tr".data then .ok (.Tracker value)
  else if key = "xl".data then
    match parseU64 value with
    | some len => .ok (.Length len)
    | none => .error (.InvalidField key value)
  else if key = "xs".data then .ok (.Source value)
  else if key = "xt".data then
    match Topic.from_str value with
    | .ok t => .ok (.ExactTopic t)
    | .error e => .error e
  else if strStartsWith key "x.".data then .ok (.Extension key value)
  else .ok (.Unknown key value)

/-- Embeds `Field::from_pair`. -/
def Field.from_pair (p : Str × Str) : Except Error Field :=
  Field.new p.1 p.2

/-- Embeds the `MagnetUri` struct. -/
structure MagnetUri where
  fields : List Field
deriving DecidableEq, Repr

/-- Embeds `MagnetUri::from_fields`. -/
def MagnetUri.from_fields (fields : List Field) : MagnetUri :=
  ⟨fields⟩

/-- Embeds `MagnetUri::topic`. -/
def MagnetUri.topic (_ : MagnetUri) : Option Topic :=
  none

/-- Embeds `result.iter().map(Field::from_pair).collect::<Result<Vec<_>, _>>()`:
classifies each decoded pair in order, failing on the first error. -/
def collectFields : List (Str × Str) → Except Error (List Field)
  | [] => .ok []
  | p :: rest =>
    match Field.from_pair p with
    | .error e => .error e
    | .ok f =>
      match collectFields rest with
      | .error e => .error e
      | .ok fs => .ok (f :: fs)

/-- Embeds `MagnetUri::from_str` (`impl FromStr for MagnetUri`).  The
external url-query decoder is passed in as `decode`; its failure surfaces
as `Error.UrlEncode` carrying the decoder's diagnostic. -/
def MagnetUri.from_str
    (decode : Str → Except String (List (Str × Str))) (s : Str) :
    Except Error MagnetUri :=
  if strStartsWith s magnetScheme then
    let args := stripScheme s
    match decode args with
    | .error e => .error (.UrlEncode e)
    | .ok result =>
      match collectFields result with
      | .error e => .error e
      | .ok fields => .ok (MagnetUri.from_fields fields)
  else .error .InvalidScheme

/-! ## Helper lemmas about the embedded string operations -/

theorem strStartsWith_iff (p : Str) : ∀ s : Str,
    strStartsWith s p = true ↔ ∃ r, s = p ++ r := by
  induction p with
  | nil =>
    intro s
    simp [strStartsWith]
  | cons d ds ih =>
    intro s
    cases s with
    | nil => simp [strStartsWith]
    | cons c cs =>
      simp only [strStartsWith, Bool.and_eq_true, beq_iff_eq, ih cs]
      constructor
      · rintro ⟨rfl, r, rfl⟩
        exact ⟨r, rfl⟩
      · rintro ⟨r, h⟩
        cases h
        exact ⟨rfl, r, rfl⟩

theorem strStartsWith_append (p r : Str) : strStartsWith (p ++ r) p = true :=
  (strStartsWith_iff p (p ++ r)).mpr ⟨r, rfl⟩

theorem splitC_ne_nil (c : Char) : ∀ l : List Char, splitC c l ≠ [] := by
  intro l
  cases l with
  | nil => simp [splitC]
  | cons a as =>
    simp only [splitC]
    match splitC c as with
    | [] => simp
    | h :: t =>
      by_cases hac : a = c <;> simp [hac]

theorem splitC_no_delim (c : Char) : ∀ l : List Char, c ∉ l → splitC c l = [l] := by
  intro l
  induction l with
  | nil => intro; rfl
  | cons a as ih =>
    intro h
    have hac : ¬a = c := fun hh => h (hh ▸ List.mem_cons_self a as)
    have has : c ∉ as := fun hh => h (List.mem_cons_of_mem a hh)
    simp only [splitC, ih has]
    simp [hac]

theorem splitC_append (c : Char) (l₂ : List Char) : ∀ l₁ : List Char, c ∉ l₁ →
    splitC c (l₁ ++ c :: l₂) = l₁ :: splitC c l₂ := by
  intro l₁
  induction l₁ with
  | nil =>
    intro
    simp only [List.nil_append, splitC]
    match h : splitC c l₂ with
    | [] => exact absurd h (splitC_ne_nil c l₂)
    | x :: t => simp
  | cons a as ih =>
    intro h
    have hac : ¬a = c := fun hh => h (hh ▸ List.mem_cons_self a as)
    have has : c ∉ as := fun hh => h (List.mem_cons_of_mem a hh)
    show (match splitC c (as ++ c :: l₂) with
      | [] => [[]]
      | h :: t => if a = c then [] :: h :: t else (a :: h) :: t)
      = (a :: as) :: splitC c l₂
    rw [ih has]
    simp [hac]

theorem strStartsWith_length {p s : Str} (h : strStartsWith s p = true) :
    p.length ≤ s.length := by
  obtain ⟨r, rfl⟩ := (strStartsWith_iff p s).mp h
  simp

theorem stripAux_succ_of_le : ∀ (n : Nat) (s : Str), s.length ≤ n →
    stripAux (n + 1) s = stripAux n s := by
  intro n
  induction n with
  | zero =>
    intro s hs
    have : s = [] := List.eq_nil_of_length_eq_zero (Nat.le_zero.mp hs)
    subst this
    simp [stripAux, strStartsWith, magnetScheme]
  | succ n ih =>
    intro s hs
    show (if strStartsWith s magnetScheme then stripAux (n + 1) (s.drop 8) else s)
      = (if strStartsWith s magnetScheme then stripAux n (s.drop 8) else s)
    by_cases hp : strStartsWith s magnetScheme = true
    · simp only [hp, if_true]
      have h8 : (8 : Nat) ≤ s.length := strStartsWith_length hp
      have hd : (s.drop 8).length ≤ n := by
        simp only [List.length_drop]
        omega
      exact ih _ hd
    · simp [hp]

theorem stripAux_eq_stripScheme : ∀ (n : Nat) (s : Str), s.length ≤ n →
    stripAux n s = stripScheme s := by
  intro n
  induction n with
  | zero =>
    intro s hs
    have : s = [] := List.eq_nil_of_length_eq_zero (Nat.le_zero.mp hs)
    subst this
    rfl
  | succ n ih =>
    intro s hs
    rcases Nat.lt_or_ge s.length (n + 1) with h | h
    · have hle : s.length ≤ n := Nat.lt_succ_iff.mp h
      rw [stripAux_succ_of_le n s hle, ih s hle]
    · have : s.length = n + 1 := Nat.le_antisymm hs h
      rw [stripScheme, this]

theorem stripScheme_of_no_match {s : Str}
    (h : strStartsWith s magnetScheme = false) : stripScheme s = s := by
  rw [stripScheme]
  cases hl : s.length with
  | zero => rfl
  | succ n =>
    show (if strStartsWith s magnetScheme then stripAux n (s.drop 8) else s) = s
    simp [h]

theorem stripScheme_step {s : Str}
    (h : strStartsWith s magnetScheme = true) :
    stripScheme s = stripScheme (s.drop 8) := by
  have h8 : (8 : Nat) ≤ s.length := strStartsWith_length h
  obtain ⟨m, hm⟩ : ∃ m, s.length = m + 1 := by
    cases hl : s.length with
    | zero => omega
    | succ n => exact ⟨n, rfl⟩
  rw [stripScheme, hm]
  show (if strStartsWith s magnetScheme then stripAux m (s.drop 8) else s)
    = stripScheme (s.drop 8)
  rw [if_pos h]
  apply stripAux_eq_stripScheme
  simp only [List.length_drop]
  omega

theorem collectFields_spec : ∀ (ps : List (Str × Str)) (fs : List Field),
    collectFields ps = .ok fs →
    fs.length = ps.length ∧
    ∀ (i : Nat) (hp : i < ps.length) (hf : i < fs.length),
      Field.new (ps.get ⟨i, hp⟩).1 (ps.get ⟨i, hp⟩).2 = .ok (fs.get ⟨i, hf⟩) := by
  intro ps
  induction ps with
  | nil =>
    intro fs h
    simp only [collectFields] at h
    cases h
    exact ⟨rfl, fun i hp => absurd hp (Nat.not_lt_zero i)⟩
  | cons p rest ih =>
    intro fs h
    simp only [collectFields] at h
    cases hf : Field.from_pair p with
    | error e => rw [hf] at h; cases h
    | ok f =>
      rw [hf] at h
      cases hc : collectFields rest with
      | error e => rw [hc] at h; cases h
      | ok fs' =>
        rw [hc] at h
        cases h
        obtain ⟨hlen, hpt⟩ := ih fs' hc
        refine ⟨by simp [hlen], ?_⟩
        intro i hp hfl
        cases i with
        | zero => exact hf
        | succ j =>
          exact hpt j (Nat.lt_of_succ_lt_succ hp) (Nat.lt_of_succ_lt_succ hfl)

/-! ## Claim theorems -/

/-- Claim C2: every input string that does not start with the literal
prefix `magnet:?` makes `MagnetUri::from_str` fail with `InvalidScheme`,
whatever the query decoder does. -/
theorem from_str_fails_invalidScheme
    (decode : Str → Except String (List (Str × Str))) (s : Str)
    (h : strStartsWith s magnetScheme = false) :
    MagnetUri.from_str decode s = .error .InvalidScheme := by
  simp [MagnetUri.from_str, h]

/-- Witness for C2 at the concrete input `http:x`. -/
theorem from_str_fails_invalidScheme_witness :
    MagnetUri.from_str (fun _ => .ok []) "http:x".data = .error .InvalidScheme :=
  from_str_fails_invalidScheme (fun _ => .ok []) "http:x".data rfl

/-- Claim C8: the `topic()` accessor returns the constant `none` for every
`MagnetUri`, including one whose field list contains an `ExactTopic`. -/
theorem topic_accessor_constant_none :
    (∀ u : MagnetUri, u.topic = none) ∧
    (MagnetUri.from_fields
      [Field.ExactTopic (Topic.BitTorrent "99ab".data)]).topic = none :=
  ⟨fun _ => rfl, rfl⟩

/-- Claim C9: `Topic::from_str` never returns the `Topic::Unknown`
variant: every successful parse yields one of the other variants. -/
theorem topic_from_str_never_unknown (s : Str) (t : Topic)
    (h : Topic.from_str s = .ok t) : t.isUnknown = false := by
  simp only [Topic.from_str] at h
  repeat' split at h
  all_goals cases h <;> rfl

/-- Witness for C9 at the concrete input `urn:sha1:abc`. -/
theorem topic_from_str_never_unknown_witness :
    (Topic.SHA1 "abc".data).isUnknown = false :=
  topic_from_str_never_unknown "urn:sha1:abc".data (Topic.SHA1 "abc".data) rfl

/-- Claim C10: when the input starts with `urn:`, splitting it at `:` and
dropping the first element always leaves a non-empty segment list, so the
zero-segment `InvalidTopic` branch of `Topic::from_str` is unreachable. -/
theorem urn_split_args_nonempty (s : Str)
    (h : strStartsWith s "urn:".data = true) :
    (splitC ':' s).drop 1 ≠ [] := by
  obtain ⟨r, rfl⟩ := (strStartsWith_iff "urn:".data s).mp h
  have e : "urn:".data ++ r = "urn".data ++ ':' :: r := rfl
  rw [e, splitC_append ':' r "urn".data (by decide)]
  simpa using splitC_ne_nil ':' r

/-- Witness for C10 at the concrete input `urn:a`. -/
theorem urn_split_args_nonempty_witness :
    (splitC ':' "urn:a".data).drop 1 ≠ [] :=
  urn_split_args_nonempty "urn:a".data rfl

/-- Counterexample for C1: the input `magnet:?magnet:?dn=a` starts with
`magnet:?`, the remainder after removing that one prefix is
`magnet:?dn=a`, but the Scheme Gate (`trim_start_matches`) also removes
the second occurrence: the decoder receives `dn=a`, not `magnet:?dn=a`. -/
theorem scheme_gate_single_strip_counterexample :
    strStartsWith "magnet:?magnet:?dn=a".data magnetScheme = true ∧
    List.drop 8 "magnet:?magnet:?dn=a".data = "magnet:?dn=a".data ∧
    stripScheme "magnet:?magnet:?dn=a".data ≠ "magnet:?dn=a".data ∧
    MagnetUri.from_str (fun q => .ok [(q, [])]) "magnet:?magnet:?dn=a".data
      = .ok (MagnetUri.from_fields [Field.Unknown "dn=a".data []]) :=
  ⟨rfl, rfl, by decide, rfl⟩

/-- Claim C1 (amended): on an input starting with `magnet:?`, the Scheme
Gate removes every leading repetition of the prefix; the string handed to
the query decoder equals the remainder after one prefix exactly when that
remainder does not itself begin with `magnet:?`. -/
theorem scheme_gate_strip_amended (s : Str)
    (h : strStartsWith s magnetScheme = true) :
    stripScheme s = stripScheme (List.drop 8 s) ∧
    (strStartsWith (List.drop 8 s) magnetScheme = false →
      stripScheme s = List.drop 8 s) := by
  refine ⟨stripScheme_step h, fun h2 => ?_⟩
  rw [stripScheme_step h, stripScheme_of_no_match h2]

/-- Witness for the amended C1 at the concrete input `magnet:?dn=a`. -/
theorem scheme_gate_strip_amended_witness :
    stripScheme "magnet:?dn=a".data
        = stripScheme (List.drop 8 "magnet:?dn=a".data) ∧
    (strStartsWith (List.drop 8 "magnet:?dn=a".data) magnetScheme = false →
      stripScheme "magnet:?dn=a".data = List.drop 8 "magnet:?dn=a".data) :=
  scheme_gate_strip_amended "magnet:?dn=a".data rfl

/-- Claim C5: for the key `xl`, classification succeeds with `Length n`
exactly when the value parses as a base-10 unsigned integer fitting in 64
bits, and otherwise fails with `InvalidField("xl", value)`; in particular
at the values `12345`, `abc` and `-1`. -/
theorem xl_classification :
    (∀ (v : Str) (n : Nat),
      Field.new "xl".data v = .ok (.Length n) ↔ parseU64 v = some n) ∧
    (∀ v : Str, parseU64 v = none →
      Field.new "xl".data v = .error (.InvalidField "xl".data v)) ∧
    (∀ (v : Str) (n : Nat), parseU64 v = some n → n < 2 ^ 64) ∧
    Field.new "xl".data "12345".data = .ok (.Length 12345) ∧
    Field.new "xl".data "abc".data
      = .error (.InvalidField "xl".data "abc".data) ∧
    Field.new "xl".data "-1".data
      = .error (.InvalidField "xl".data "-1".data) := by
  have hnew : ∀ v : Str, Field.new "xl".data v =
      match parseU64 v with
      | some len => .ok (.Length len)
      | none => .error (.InvalidField "xl".data v) :=
    fun _ => rfl
  have hbound : ∀ (v : Str) (n : Nat), parseU64 v = some n → n < 2 ^ 64 := by
    intro v n h
    simp only [parseU64] at h
    repeat' split at h
    all_goals cases h <;> assumption
  refine ⟨?_, ?_, hbound, ?_, ?_, ?_⟩
  · intro v n
    rw [hnew v]
    cases hv : parseU64 v <;> simp
  · intro v hv
    rw [hnew v, hv]
  · rw [hnew _]; rfl
  · rw [hnew _]; rfl
  · rw [hnew _]; rfl

/-- Witness for C5 at the concrete value `7`. -/
theorem xl_classification_witness :
    Field.new "xl".data "7".data = .ok (.Length 7) ∧ (7 : Nat) < 2 ^ 64 :=
  ⟨(xl_classification.1 "7".data 7).mpr rfl,
    xl_classification.2.2.1 "7".data 7 rfl⟩

/-- Claim C6: classification is total on every key other than `xl` and
`xt`: the six recognized opaque keys map to their variants carrying the
value unchanged, other keys starting with `x.` map to `Extension`, and all
remaining keys map to `Unknown` — never an error. -/
theorem field_classification_total (k v : Str)
    (h1 : k ≠ "xl".data) (h2 : k ≠ "xt".data) :
    Field.new k v = .ok (
      if k = "as".data then .AcceptableSource v
      else if k = "dn".data then .DisplayName v
      else if k = "kt".data then .KeywordTopic v
      else if k = "mt".data then .ManifestTopic v
      else if k = "tr".data then .Tracker v
      else if k = "xs".data then .Source v
      else if strStartsWith k "x.".data then .Extension k v
      else .Unknown k v) := by
  simp only [Field.new, if_neg h1, if_neg h2]
  split_ifs <;> rfl

/-- Witness for C6 at the concrete keys `zz` and `x.myapp`. -/
theorem field_classification_total_witness :
    Field.new "zz".data "foo".data
      = .ok (.Unknown "zz".data "foo".data) := by
  rw [field_classification_total "zz".data "foo".data (by decide) (by decide)]
  rfl

/-- Claim C3: a topic of the form `urn:` plus exactly two colon-free
segments `[namespace, value]` parses to the variant matching the namespace
(exact, case-sensitive match) carrying the value, and any other namespace
fails with `InvalidTopic` carrying just the namespace segment. -/
theorem two_segment_topic (ns val : Str) (h1 : ':' ∉ ns) (h2 : ':' ∉ val) :
    Topic.from_str ("urn:".data ++ ns ++ ':' :: val) =
      (if ns = "aich".data then .ok (.AICH val)
      else if ns = "bitprint".data then .ok (.BitPrint val)
      else if ns = "btih".data then .ok (.BitTorrent val)
      else if ns = "ed2k".data then .ok (.ED2K val)
      else if ns = "kzhash".data then .ok (.Kazaa val)
      else if ns = "md5".data then .ok (.MD5 val)
      else if ns = "sha1".data then .ok (.SHA1 val)
      else .error (.InvalidTopic ns)) := by
  have hpre : strStartsWith ("urn:".data ++ ns ++ ':' :: val) "urn:".data
      = true := by
    rw [List.append_assoc]
    exact strStartsWith_append "urn:".data (ns ++ ':' :: val)
  have e1 : "urn:".data ++ ns ++ ':' :: val
      = "urn".data ++ ':' :: (ns ++ ':' :: val) := by
    rw [List.append_assoc]; rfl
  have hsplit : splitC ':' ("urn:".data ++ ns ++ ':' :: val)
      = "urn".data :: ns :: [val] := by
    rw [e1, splitC_append ':' (ns ++ ':' :: val) "urn".data (by decide),
      splitC_append ':' val ns h1, splitC_no_delim ':' val h2]
  simp only [Topic.from_str, hpre, if_true, hsplit]
  rfl

/-- Witness for C3 at the concrete namespaces `btih`, `zzz` and the
case-variant `BTIH` (rejected: matching is case-sensitive). -/
theorem two_segment_topic_witness :
    Topic.from_str ("urn:".data ++ "btih".data ++ ':' :: "99ab".data)
      = .ok (.BitTorrent "99ab".data) ∧
    Topic.from_str ("urn:".data ++ "zzz".data ++ ':' :: "v".data)
      = .error (.InvalidTopic "zzz".data) ∧
    Topic.from_str ("urn:".data ++ "BTIH".data ++ ':' :: "v".data)
      = .error (.InvalidTopic "BTIH".data) := by
  refine ⟨?_, ?_, ?_⟩
  · rw [two_segment_topic "btih".data "99ab".data (by decide) (by decide)]
    rfl
  · rw [two_segment_topic "zzz".data "v".data (by decide) (by decide)]
    rfl
  · rw [two_segment_topic "BTIH".data "v".data (by decide) (by decide)]
    rfl

/-- Claim C4: `Topic::from_str` fails with `InvalidTopic` carrying the
full original input when the input does not start with `urn:`, when there
are exactly three segments whose first two are not `tree`, `tiger`, and at
any other segment count; it succeeds with `TTHash value` on
`urn:tree:tiger:value`. -/
theorem topic_error_paths :
    (∀ s : Str, strStartsWith s "urn:".data = false →
      Topic.from_str s = .error (.InvalidTopic s)) ∧
    (∀ (s a b c : Str), strStartsWith s "urn:".data = true →
      (splitC ':' s).drop 1 = [a, b, c] →
      ¬(a = "tree".data ∧ b = "tiger".data) →
      Topic.from_str s = .error (.InvalidTopic s)) ∧
    (∀ s : Str, strStartsWith s "urn:".data = true →
      ((splitC ':' s).drop 1).length ≠ 2 →
      ((splitC ':' s).drop 1).length ≠ 3 →
      Topic.from_str s = .error (.InvalidTopic s)) ∧
    (∀ val : Str, ':' ∉ val →
      Topic.from_str ("urn:tree:tiger:".data ++ val)
        = .ok (.TTHash val)) := by
  refine ⟨?_, ?_, ?_, ?_⟩
  · intro s h
    simp [Topic.from_str, h]
  · intro s a b c hpre hargs hne
    simp only [Topic.from_str, hpre, if_true, hargs]
    simp [hne]
  · intro s hpre h2 h3
    rcases hargs : (splitC ':' s).drop 1 with _ | ⟨x, _ | ⟨y, _ | ⟨z, rest⟩⟩⟩
    · simp [Topic.from_str, hpre, hargs]
    · simp [Topic.from_str, hpre, hargs]
    · exact absurd (by rw [hargs]; rfl) h2
    · cases rest with
      | nil => exact absurd (by rw [hargs]; rfl) h3
      | cons w ws => simp [Topic.from_str, hpre, hargs]
  · intro val hval
    have hpre : strStartsWith ("urn:tree:tiger:".data ++ val) "urn:".data
        = true :=
      (strStartsWith_iff "urn:".data _).mpr ⟨"tree:tiger:".data ++ val, rfl⟩
    have e1 : "urn:tree:tiger:".data ++ val
        = "urn".data ++ ':' :: ("tree".data ++ ':'
            :: ("tiger".data ++ ':' :: val)) := rfl
    have hsplit : splitC ':' ("urn:tree:tiger:".data ++ val)
        = "urn".data :: "tree".data :: "tiger".data :: [val] := by
      rw [e1, splitC_append ':' _ "urn".data (by decide),
        splitC_append ':' _ "tree".data (by decide),
        splitC_append ':' val "tiger".data (by decide),
        splitC_no_delim ':' val hval]
    simp only [Topic.from_str, hpre, if_true, hsplit]
    rfl

/-- Witness for C4 at the concrete inputs `notaurn`, `urn:tree:other:AB`,
`urn:a` and `urn:tree:tiger:ABCDEF`. -/
theorem topic_error_paths_witness :
    Topic.from_str "notaurn".data
      = .error (.InvalidTopic "notaurn".data) ∧
    Topic.from_str "urn:tree:other:AB".data
      = .error (.InvalidTopic "urn:tree:other:AB".data) ∧
    Topic.from_str "urn:a".data = .error (.InvalidTopic "urn:a".data) ∧
    Topic.from_str ("urn:tree:tiger:".data ++ "ABCDEF".data)
      = .ok (.TTHash "ABCDEF".data) :=
  ⟨topic_error_paths.1 "notaurn".data rfl,
    topic_error_paths.2.1 "urn:tree:other:AB".data
      "tree".data "other".data "AB".data rfl rfl (by decide),
    topic_error_paths.2.2.1 "urn:a".data rfl (by decide) (by decide),
    topic_error_paths.2.2.2 "ABCDEF".data (by decide)⟩

/-- Claim C7: whenever parsing succeeds, the resulting `MagnetUri` holds
exactly one `Field` per decoded pair, in decoding order: the field list
has the same length as the decoded pair list and the field at each index
is the classification of the pair at that index. -/
theorem parse_preserves_pairs
    (decode : Str → Except String (List (Str × Str))) (s : Str)
    (uri : MagnetUri) (h : MagnetUri.from_str decode s = .ok uri) :
    ∃ pairs, decode (stripScheme s) = .ok pairs ∧
      uri.fields.length = pairs.length ∧
      ∀ (i : Nat) (hp : i < pairs.length) (hf : i < uri.fields.length),
        Field.new (pairs.get ⟨i, hp⟩).1 (pairs.get ⟨i, hp⟩).2
          = .ok (uri.fields.get ⟨i, hf⟩) := by
  simp only [MagnetUri.from_str] at h
  split at h
  · split at h
    · cases h
    · rename_i pairs heq
      split at h
      · cases h
      · rename_i fields heq2
        cases h
        obtain ⟨hlen, hpt⟩ := collectFields_spec pairs fields heq2
        exact ⟨pairs, heq, hlen, fun i hp2 hf2 => hpt i hp2 hf2⟩
  · cases h

/-- Witness for C7 with a concrete decoder returning one `dn` pair. -/
theorem parse_preserves_pairs_witness :
    ∃ pairs,
      (fun _ : Str =>
        (Except.ok [("dn".data, "a".data)] :
          Except String (List (Str × Str)))) (stripScheme "magnet:?dn=a".data)
        = .ok pairs ∧
      (MagnetUri.from_fields [Field.DisplayName "a".data]).fields.length
        = pairs.length ∧
      ∀ (i : Nat) (hp : i < pairs.length)
        (hf : i < (MagnetUri.from_fields
          [Field.DisplayName "a".data]).fields.length),
        Field.new (pairs.get ⟨i, hp⟩).1 (pairs.get ⟨i, hp⟩).2
          = .ok ((MagnetUri.from_fields
              [Field.DisplayName "a".data]).fields.get ⟨i, hf⟩) :=
  parse_preserves_pairs
    (fun _ => .ok [("dn".data, "a".data)]) "magnet:?dn=a".data
    (MagnetUri.from_fields [Field.DisplayName "a".data]) rfl

end Magnet
